import Mathlib

/-!
Shallow embedding of the client-side reactivity effect module of the repository
(`packages/svelte/src/internal/client/reactivity/effects.js`), together with the
pieces of the surrounding runtime that the claims about that module depend on.

Conventions of the embedding:
* The JavaScript flag word `f` (a bitmask combining the effect-kind bits, the
  status bits, `INERT`, `EFFECT_RAN` and `IS_ELSEIF`) is represented as separate
  fields: `ty : EffectType` for the kind bits, `status : Status` for the status
  bits, and booleans `inert`, `ran`, `elseif`.  The numeric bit values come from
  `constants.js`, which is not part of the source sample; only bit membership is
  ever observed by the code under study, so booleans are an exact model.
* Nullable JavaScript fields are `Option`s; `null` is `none`.
* Heap identity is modelled by a numeric `id` carried by every node; the global
  subscriber ("reactions") graph is a list of (source id, subscriber id) pairs.
* Side effects that call out of the module (stopping a transition, running a
  teardown closure, removing DOM, executing an effect function) are recorded in
  an event log.
-/

set_option linter.unusedVariables false

/-- Status part of the flag word `f` of a reactive node: `CLEAN`, `DIRTY`,
`MAYBE_DIRTY` or `DESTROYED` in `constants.js`. -/
inductive Status where
  | clean
  | dirty
  | maybeDirty
  | destroyed
deriving DecidableEq, Repr

/-- Transition manager record attached to an effect.  Only the identity and the
`is_global` flag are observed by `effects.js`; `in`, `out` and `stop` calls are
recorded as events. -/
structure Transition where
  id : Nat
  is_global : Bool
deriving DecidableEq, Repr

/-- Description of an effect body: it either returns (optionally yielding a
teardown closure, identified by a number) or throws a numeric error code; the
`untracked` wrapper stands for `() => untrack(fn)` as used by `effect_root`. -/
inductive FnSpec where
  | ret (teardown : Option Nat)
  | raise (code : Nat)
  | untracked (inner : FnSpec)
deriving DecidableEq, Repr

/-- Modelled from the spec: the effect-kind bits of `constants.js` (not under
`src/`) — `ROOT_EFFECT`, `RENDER_EFFECT`, `BLOCK_EFFECT`, `BRANCH_EFFECT`,
`PRE_EFFECT` and `EFFECT` — represented as a record of booleans.  Field order:
root, render, block, branch, pre, user. -/
structure EffectType where
  root : Bool
  render : Bool
  block : Bool
  branch : Bool
  pre : Bool
  user : Bool
deriving DecidableEq, Repr

/-- Modelled from the spec: the `EFFECT` kind bit (a plain user effect). -/
def EFFECT : EffectType := ⟨false, false, false, false, false, true⟩

/-- Modelled from the spec: the `PRE_EFFECT` kind bit. -/
def PRE_EFFECT : EffectType := ⟨false, false, false, false, true, false⟩

/-- Modelled from the spec: the `RENDER_EFFECT` kind bit. -/
def RENDER_EFFECT : EffectType := ⟨false, true, false, false, false, false⟩

/-- Modelled from the spec: the `BLOCK_EFFECT` kind bit. -/
def BLOCK_EFFECT : EffectType := ⟨false, false, true, false, false, false⟩

/-- Modelled from the spec: the `BRANCH_EFFECT` kind bit. -/
def BRANCH_EFFECT : EffectType := ⟨false, false, false, true, false, false⟩

/-- Modelled from the spec: the `ROOT_EFFECT` kind bit. -/
def ROOT_EFFECT : EffectType := ⟨true, false, false, false, false, false⟩

/-- Bitwise union of two kind masks, as in `RENDER_EFFECT | BLOCK_EFFECT`. -/
def EffectType.or (a b : EffectType) : EffectType :=
  ⟨a.root || b.root, a.render || b.render, a.block || b.block,
   a.branch || b.branch, a.pre || b.pre, a.user || b.user⟩

/-- Derived child of an effect (an entry of the `deriveds` list): its identity
and the dependency list captured from its last run, each entry a pair of the
dep's source id and the version seen at that run. -/
structure DerivedChild where
  id : Nat
  deps : Option (List (Nat × Nat))
deriving DecidableEq, Repr

/-- Data record of an effect node, mirroring the object literal allocated in
`create_effect` in `effects.js`: `parent`, `dom`, `deps`, the flag word `f`
(split as described in the module comment), `l`, `fn`, `deriveds`, `teardown`,
`ctx` and `transitions`, plus the modelled heap identity `id`.  A `deps` entry
is a pair (source id, version seen at the node's last run). -/
structure EffectData where
  id : Nat
  parent : Option Nat
  dom : Option Nat
  deps : Option (List (Nat × Nat))
  ty : EffectType
  status : Status
  inert : Bool
  ran : Bool
  elseif : Bool
  l : Nat
  fn : Option FnSpec
  deriveds : Option (List DerivedChild)
  teardown : Option Nat
  ctx : Option Nat
  transitions : Option (List Transition)
deriving DecidableEq, Repr

/-- An effect node together with its (nullable) list of child effects, the
ownership tree that `destroy_effect`, `pause_children` and `resume_children`
walk. -/
inductive Effect where
  | mk (data : EffectData) (effects : Option (List Effect))

/-- Data record of the root node of an effect tree. -/
def Effect.data : Effect → EffectData
  | .mk d _ => d

/-- Child list (the `effects` field) of the root node of an effect tree. -/
def Effect.effects : Effect → Option (List Effect)
  | .mk _ cs => cs

/-- Child list with `null` read as the empty list (iteration over a `null`
child list and over an empty one are indistinguishable). -/
def Effect.childList (e : Effect) : List Effect := e.effects.getD []

/-- Condition `(child.f & IS_ELSEIF) !== 0 || (child.f & BRANCH_EFFECT) !== 0`
from `pause_children` and `resume_children`: such children are transparent to
the local/global transition distinction. -/
def Effect.transparent (e : Effect) : Bool := e.data.elseif || e.data.ty.branch

/-- Subscriber ("reactions") graph: the set of (source id, subscriber id)
edges, i.e. the union of all `reactions` arrays of all sources. -/
abbrev Graph : Type := List (Nat × Nat)

/-- Events recording the calls the effect module makes out of itself. -/
inductive Event where
  | destroyedNode (id : Nat)
  | stopT (tid : Nat)
  | teardownRun (id : Nat)
  | removeDom (id : Nat)
  | executed (id : Nat)
  | transIn (tid : Nat)
  | scheduled (id : Nat)
  | ranFn (id : Nat) (tracked : Bool)
  | callbackRun
deriving DecidableEq, Repr

/-- Modelled from the spec: `remove_reactions` lives in `runtime.js`, which is
not under `src/`; the spec says destroy must "remove this node from every dep's
subscriber set".  Removal drops every graph edge whose subscriber is this node
and whose source is one of the node's recorded deps. -/
def remove_reactions (deps : Option (List (Nat × Nat))) (eid : Nat) (g : Graph) : Graph :=
  g.filter (fun p => !(p.2 == eid && (deps.getD []).any (fun q => q.1 == p.1)))

/-- Modelled from the spec: destruction of the `deriveds` children of an effect
by `destroy_children` in `runtime.js` (not under `src/`): each derived is
removed from every dep's subscriber set and marked destroyed. -/
def destroy_deriveds : List DerivedChild → Graph → Graph × List Event
  | [], g => (g, [])
  | dv :: rest, g =>
    let g1 := remove_reactions dv.deps dv.id g
    let r := destroy_deriveds rest g1
    (r.1, Event.destroyedNode dv.id :: r.2)

/-- Own (post-children) event trace of `destroy_effect` on a node, in source
order: the status is set to `DESTROYED`, every attached transition is stopped,
the captured teardown closure (if any) is invoked, and the host DOM handle (if
any) is removed. -/
def destroy_own_events (d : EffectData) : List Event :=
  Event.destroyedNode d.id ::
    ((d.transitions.getD []).map (fun t => Event.stopT t.id)
      ++ (match d.teardown with
          | some _ => [Event.teardownRun d.id]
          | none => [])
      ++ (match d.dom with
          | some _ => [Event.removeDom d.id]
          | none => []))

/-- Data record of a node after `destroy_effect` is done with it: status
`DESTROYED` and the internal links (`effects` is handled by the tree shape;
`teardown`, `ctx`, `dom`, `deps`, `fn`, and — via `destroy_children` — the
`deriveds` list) nulled. -/
def nulled (d : EffectData) : EffectData :=
  { d with status := .destroyed, deriveds := none, teardown := none,
           ctx := none, dom := none, deps := none, fn := none }

/-- Size bound used to justify termination of the tree walks: reading a
nullable child list costs no more than the stored option. -/
def sizeOf_option_getD (cs : Option (List Effect)) :
    sizeOf (cs.getD ([] : List Effect)) ≤ sizeOf cs := by
  cases cs <;> simp [Option.getD]

mutual

/-- Embedding of `destroy_effect` from `effects.js`: destroy the children
(depth-first, via `destroy_children` of `runtime.js`, modelled from the spec as
deriveds followed by the child effects in order), remove the node from every
dep's subscriber set, set the status to `DESTROYED`, stop the transitions,
invoke the teardown, remove the DOM and null the internal links.  Returns the
destroyed node, the updated subscriber graph and the event trace. -/
def destroy_effect (e : Effect) (g : Graph) : Effect × Graph × List Event :=
  match e with
  | .mk d cs =>
    let rd := destroy_deriveds (d.deriveds.getD []) g
    let rc := destroy_effect_list (cs.getD []) rd.1
    let g2 := remove_reactions d.deps d.id rc.1
    (.mk (nulled d) none, g2, rd.2 ++ rc.2 ++ destroy_own_events d)
termination_by sizeOf e
decreasing_by simp_wf; exact Nat.lt_of_le_of_lt (sizeOf_option_getD _) (by omega)

/-- Depth-first destruction of a list of child effects, threading the graph. -/
def destroy_effect_list (es : List Effect) (g : Graph) : Graph × List Event :=
  match es with
  | [] => (g, [])
  | c :: rest =>
    let r1 := destroy_effect c g
    let r2 := destroy_effect_list rest r1.2.1
    (r2.1, r1.2.2 ++ r2.2)
termination_by sizeOf es
decreasing_by all_goals simp_wf <;> omega

end

mutual

/-- All node data records of an effect tree, root first, children in order. -/
def Effect.nodes (e : Effect) : List EffectData :=
  match e with
  | .mk d cs => d :: nodes_list (cs.getD [])
termination_by sizeOf e
decreasing_by simp_wf; exact Nat.lt_of_le_of_lt (sizeOf_option_getD _) (by omega)

/-- All node data records of a list of effect trees. -/
def nodes_list (es : List Effect) : List EffectData :=
  match es with
  | [] => []
  | c :: rest => c.nodes ++ nodes_list rest
termination_by sizeOf es
decreasing_by all_goals simp_wf <;> omega

end

/-- Identities owned by one node: the node itself and its derived children. -/
def data_ids (d : EffectData) : List Nat :=
  d.id :: (d.deriveds.getD []).map (fun dv => dv.id)

/-- All identities (effects and deriveds) owned by an effect tree. -/
def Effect.allIds (e : Effect) : List Nat :=
  e.nodes.flatMap data_ids

/-- Does destroying the node data `d` remove the graph edge `p`?  True when `p`
is an edge from one of `d`'s recorded deps to `d` itself, or from one of a
derived child's recorded deps to that derived. -/
def data_removes (d : EffectData) (p : Nat × Nat) : Bool :=
  (p.2 == d.id && (d.deps.getD []).any (fun q => q.1 == p.1))
    || (d.deriveds.getD []).any
        (fun dv => p.2 == dv.id && (dv.deps.getD []).any (fun q => q.1 == p.1))

/-- Does destroying the tree `e` remove the graph edge `p`? -/
def Effect.removes (e : Effect) (p : Nat × Nat) : Bool :=
  e.nodes.any (fun d => data_removes d p)

/-- Lookup of the current version of a source in a version table (source id,
current version); sources absent from the table have version 0. -/
def lookup_version (v : List (Nat × Nat)) (s : Nat) : Nat :=
  match v.find? (fun p => p.1 == s) with
  | some p => p.2
  | none => 0

/-- Modelled from the spec: `check_dirtiness` lives in `runtime.js`, not under
`src/`.  Spec 4.2/4.3: a dirty node must re-run; a maybe-dirty node re-runs
exactly when one of its recorded deps' versions changed since its last run;
a clean (or destroyed) node does not. -/
def check_dirtiness (d : EffectData) (v : List (Nat × Nat)) : Bool :=
  match d.status with
  | .dirty => true
  | .maybeDirty => (d.deps.getD []).any (fun q => !(lookup_version v q.1 == q.2))
  | _ => false

/-- Modelled from the spec: `execute_effect` of `runtime.js` (not under `src/`)
as invoked from `resume_children`: the node re-runs to reconcile the deferred
state, leaving it clean with its recorded dep versions caught up to the current
ones. -/
def execute_effect_tree (d : EffectData) (v : List (Nat × Nat)) : EffectData :=
  { d with status := .clean,
           deps := d.deps.map (fun l => l.map (fun q => (q.1, lookup_version v q.1))) }

mutual

/-- Embedding of `pause_children` from `effects.js`: skip subtrees whose root
is already inert; otherwise toggle the `INERT` bit, collect the node's
transitions that are global or local-with-`local`-set, and recurse into the
children, passing `local` through transparent (else-if or branch) children and
`false` through all others.  Returns the updated tree and the collected
transitions in traversal order. -/
def pause_children (e : Effect) (loc : Bool) : Effect × List Transition :=
  match e with
  | .mk d cs =>
    if d.inert then (.mk d cs, [])
    else
      let d1 := { d with inert := !d.inert }
      let own := (d.transitions.getD []).filter (fun t => t.is_global || loc)
      let rc := pause_children_list (cs.getD []) loc
      (.mk d1 (cs.map (fun _ => rc.1)), own ++ rc.2)
termination_by sizeOf e
decreasing_by simp_wf; exact Nat.lt_of_le_of_lt (sizeOf_option_getD _) (by omega)

/-- Walk of `pause_children` over a child list, in order. -/
def pause_children_list (es : List Effect) (loc : Bool) : List Effect × List Transition :=
  match es with
  | [] => ([], [])
  | c :: rest =>
    let r1 := pause_children c (if c.transparent then loc else false)
    let r2 := pause_children_list rest loc
    (r1.1 :: r2.1, r1.2 ++ r2.2)
termination_by sizeOf es
decreasing_by all_goals simp_wf <;> omega

end

/-- Countdown state of `out` in `effects.js`: `remaining` transitions still to
signal completion, and whether the completion function has fired. -/
structure OutState where
  remaining : Nat
  fired : Bool
deriving DecidableEq, Repr

/-- Embedding of the entry behaviour of `out`: with no transitions the
completion function runs immediately; otherwise the countdown starts at the
number of collected transitions. -/
def out_start (n : Nat) : OutState :=
  if 0 < n then ⟨n, false⟩ else ⟨0, true⟩

/-- Embedding of the callback `check = () => --remaining || fn()` passed by
`out` to each collected transition: one completion signal decrements the
countdown, and the completion function fires when it reaches zero. -/
def out_check (s : OutState) : OutState :=
  ⟨s.remaining - 1, s.fired || s.remaining - 1 == 0⟩

/-- State of the countdown after `k` completion signals. -/
def out_signals : Nat → OutState → OutState
  | 0, s => s
  | k + 1, s => out_signals k (out_check s)

/-- Result of `pause_effect` from `effects.js`: the paused tree, the collected
transitions, and the countdown that guards the deferred destruction. -/
structure PauseResult where
  tree : Effect
  collected : List Transition
  out : OutState

/-- Embedding of `pause_effect` from `effects.js`: pause the subtree with
`local = true`, then hand the collected transitions to `out`, whose completion
function destroys the paused tree and invokes the callback. -/
def pause_effect (e : Effect) : PauseResult :=
  let r := pause_children e true
  { tree := r.1, collected := r.2, out := out_start r.2.length }

/-- Completion function that `pause_effect` registers with `out`: a full
destroy of the paused subtree followed by the caller's callback. -/
def pause_fire (r : PauseResult) (g : Graph) : Effect × Graph × List Event :=
  let x := destroy_effect r.tree g
  (x.1, x.2.1, x.2.2 ++ [Event.callbackRun])

mutual

/-- Embedding of `resume_children` from `effects.js`: stop at subtrees whose
root is not inert; otherwise toggle the `INERT` bit off, re-execute the node
right away if a dependency changed while it was paused, recurse into the
children (passing `local` through transparent children only), and finally
trigger the inbound transitions that are global or local-with-`local`-set. -/
def resume_children (e : Effect) (loc : Bool) (v : List (Nat × Nat)) :
    Effect × List Event :=
  match e with
  | .mk d cs =>
    if !d.inert then (.mk d cs, [])
    else
      let d1 := { d with inert := !d.inert }
      let ex := if check_dirtiness d1 v
                then (execute_effect_tree d1 v, [Event.executed d1.id])
                else (d1, ([] : List Event))
      let rc := resume_children_list (cs.getD []) loc v
      let ins := ((d.transitions.getD []).filter (fun t => t.is_global || loc)).map
                   (fun t => Event.transIn t.id)
      (.mk ex.1 (cs.map (fun _ => rc.1)), ex.2 ++ rc.2 ++ ins)
termination_by sizeOf e
decreasing_by simp_wf; exact Nat.lt_of_le_of_lt (sizeOf_option_getD _) (by omega)

/-- Walk of `resume_children` over a child list, in order. -/
def resume_children_list (es : List Effect) (loc : Bool) (v : List (Nat × Nat)) :
    List Effect × List Event :=
  match es with
  | [] => ([], [])
  | c :: rest =>
    let r1 := resume_children c (if c.transparent then loc else false) v
    let r2 := resume_children_list rest loc v
    (r1.1 :: r2.1, r1.2 ++ r2.2)
termination_by sizeOf es
decreasing_by all_goals simp_wf <;> omega

end

/-- Embedding of `resume_effect` from `effects.js`: resume the subtree with
`local = true`. -/
def resume_effect (e : Effect) (v : List (Nat × Nat)) : Effect × List Event :=
  resume_children e true v

mutual

/-- Wording of the pause claim, tree part: "for each node not already inert it
flips the inert flag (subtrees already inert are skipped entirely)" — flipping
a non-inert flag sets it. -/
def mark_inert (e : Effect) : Effect :=
  match e with
  | .mk d cs =>
    if d.inert then .mk d cs
    else .mk { d with inert := true } (cs.map (fun _ => mark_inert_list (cs.getD [])))
termination_by sizeOf e
decreasing_by simp_wf; exact Nat.lt_of_le_of_lt (sizeOf_option_getD _) (by omega)

/-- List version of `mark_inert`. -/
def mark_inert_list (es : List Effect) : List Effect :=
  match es with
  | [] => []
  | c :: rest => mark_inert c :: mark_inert_list rest
termination_by sizeOf es
decreasing_by all_goals simp_wf <;> omega

end

mutual

/-- Wording of the pause claim, reachability part: the nodes a pause walk
reaches (stopping at already-inert subtrees), each with the flag telling
whether the pause reached it only through transparent (branch/else-if)
children, i.e. whether the pause originated within its own family. -/
def pause_reached (e : Effect) (fam : Bool) : List (EffectData × Bool) :=
  match e with
  | .mk d cs =>
    if d.inert then []
    else (d, fam) :: pause_reached_list (cs.getD []) fam
termination_by sizeOf e
decreasing_by simp_wf; exact Nat.lt_of_le_of_lt (sizeOf_option_getD _) (by omega)

/-- List version of `pause_reached`: a child keeps the family flag exactly when
it is transparent. -/
def pause_reached_list (es : List Effect) (fam : Bool) : List (EffectData × Bool) :=
  match es with
  | [] => []
  | c :: rest => pause_reached c (fam && c.transparent) ++ pause_reached_list rest fam
termination_by sizeOf es
decreasing_by all_goals simp_wf <;> omega

end

/-- Wording of the pause claim, collection part: a transition is collected
exactly when its node is reached and it is declared global, or it is local and
the pause reached its node only through transparent children. -/
def pause_collect_spec (e : Effect) : List Transition :=
  (pause_reached e true).flatMap
    (fun p => (p.1.transitions.getD []).filter (fun t => t.is_global || p.2))

mutual

/-- Wording of the resume claim, reachability part: the nodes a resume walk
reaches (stopping at nodes that are not inert), each with its family flag. -/
def resume_reached (e : Effect) (fam : Bool) : List (EffectData × Bool) :=
  match e with
  | .mk d cs =>
    if !d.inert then []
    else (d, fam) :: resume_reached_list (cs.getD []) fam
termination_by sizeOf e
decreasing_by simp_wf; exact Nat.lt_of_le_of_lt (sizeOf_option_getD _) (by omega)

/-- List version of `resume_reached`. -/
def resume_reached_list (es : List Effect) (fam : Bool) : List (EffectData × Bool) :=
  match es with
  | [] => []
  | c :: rest => resume_reached c (fam && c.transparent) ++ resume_reached_list rest fam
termination_by sizeOf es
decreasing_by all_goals simp_wf <;> omega

end

mutual

/-- Wording of the resume claim, tree part: clear the inert flag of every
reached node (stopping at nodes that are not inert) and reconcile — leave
clean, with dep versions caught up — every reached node whose dependencies
changed while it was inert. -/
def resume_tree_spec (e : Effect) (v : List (Nat × Nat)) : Effect :=
  match e with
  | .mk d cs =>
    if !d.inert then .mk d cs
    else
      let d1 := { d with inert := false }
      let d2 := if check_dirtiness d1 v then execute_effect_tree d1 v else d1
      .mk d2 (cs.map (fun _ => resume_tree_spec_list (cs.getD []) v))
termination_by sizeOf e
decreasing_by simp_wf; exact Nat.lt_of_le_of_lt (sizeOf_option_getD _) (by omega)

/-- List version of `resume_tree_spec`. -/
def resume_tree_spec_list (es : List Effect) (v : List (Nat × Nat)) : List Effect :=
  match es with
  | [] => []
  | c :: rest => resume_tree_spec c v :: resume_tree_spec_list rest v
termination_by sizeOf es
decreasing_by all_goals simp_wf <;> omega

end

mutual

/-- Wording of the resume claim, event part: for each reached node, execute it
immediately when its dependencies changed while it was inert, then recurse into
the children, and finally trigger the inbound transitions of the eligible
(global, or local within the family) transitions. -/
def resume_log_spec (e : Effect) (loc : Bool) (v : List (Nat × Nat)) : List Event :=
  match e with
  | .mk d cs =>
    if !d.inert then []
    else
      (if check_dirtiness d v then [Event.executed d.id] else [])
        ++ resume_log_spec_list (cs.getD []) loc v
        ++ ((d.transitions.getD []).filter (fun t => t.is_global || loc)).map
             (fun t => Event.transIn t.id)
termination_by sizeOf e
decreasing_by simp_wf; exact Nat.lt_of_le_of_lt (sizeOf_option_getD _) (by omega)

/-- List version of `resume_log_spec`. -/
def resume_log_spec_list (es : List Effect) (loc : Bool) (v : List (Nat × Nat)) :
    List Event :=
  match es with
  | [] => []
  | c :: rest =>
    resume_log_spec c (if c.transparent then loc else false) v
      ++ resume_log_spec_list rest loc v
termination_by sizeOf es
decreasing_by all_goals simp_wf <;> omega

end

/-- Errors that `effects.js` can let escape to the caller: the orphan-effect
error thrown by `user_effect` / `user_pre_effect`, or an error thrown by a user
body during synchronous execution. -/
inductive Thrown where
  | orphan
  | user (code : Nat)
deriving DecidableEq, Repr

/-- Component context record, as observed by `user_effect`: whether the
component is mounted (`m`) and the list of user effects deferred to run after
mount (`e`), plus a modelled identity. -/
structure ComponentContext where
  id : Nat
  m : Bool
  e : Option (List Nat)
deriving DecidableEq, Repr

/-- Currently executing reaction, as observed by `create_effect`: only its
(nullable) list of registered child effects matters, kept as ids. -/
structure Reaction where
  effects : Option (List Nat)
deriving DecidableEq, Repr

/-- Process-wide runtime state threaded through the creation functions:
`current_effect`, `current_reaction`, `current_component_context` and
`is_flushing_effect` from `runtime.js`, the scheduler queue, a heap of the
effect records allocated so far (a modelling device standing for the JS
objects, so that flags survive a throw), an event log, and the id allocator. -/
structure Runtime where
  current_effect : Option EffectData
  current_reaction : Option Reaction
  current_component_context : Option ComponentContext
  is_flushing_effect : Bool
  queue : List Nat
  nodes : List EffectData
  log : List Event
  next_id : Nat
deriving DecidableEq, Repr

/-- Modelled from the spec: running an effect body.  The `untracked` wrapper
(`untrack` of `runtime.js`, not under `src/`) executes the wrapped body with
dependency registration suspended, which the trace records in the `tracked`
flag.  Returns the teardown closure or the thrown error code. -/
def run_fn : FnSpec → Nat → Bool → (Except Nat (Option Nat)) × List Event
  | .ret td, eid, tracked => (.ok td, [.ranFn eid tracked])
  | .raise c, eid, tracked => (.error c, [.ranFn eid tracked])
  | .untracked f, eid, _ => run_fn f eid false

/-- Modelled from the spec: `execute_effect` of `runtime.js` (not under
`src/`), as far as the creation claims observe it: the body runs once; on
return the teardown closure is captured and the node is left clean; a thrown
error propagates without being caught. -/
def execute_effect (e : EffectData) (st : Runtime) : (Except Nat EffectData) × Runtime :=
  let r := run_fn (e.fn.getD (.ret none)) e.id true
  match r.1 with
  | .ok td =>
    (.ok { e with teardown := td, status := .clean }, { st with log := st.log ++ r.2 })
  | .error c => (.error c, { st with log := st.log ++ r.2 })

/-- Modelled from the spec: `schedule_effect` of `runtime.js` (not under
`src/`): the dirty effect is enqueued on the scheduler. -/
def schedule_effect (e : EffectData) (st : Runtime) : Runtime :=
  { st with queue := st.queue ++ [e.id], log := st.log ++ [.scheduled e.id] }

/-- Embedding of `create_effect` from `effects.js`: allocate the node with
parent `current_effect` (null for root effects) and status `DIRTY`; set its
level from the current effect; register it as a child of the current reaction
unless it is a root effect; then, when `init` is set, either execute it
immediately inline (with `is_flushing_effect` forced on and restored on the way
out, and `EFFECT_RAN` set only after a completed run) when `sync` is set, or
schedule it otherwise.  The final record is appended to the modelled heap. -/
def create_effect (ty : EffectType) (fn : FnSpec) (sync : Bool) (init : Bool)
    (st : Runtime) : (Except Thrown EffectData) × Runtime :=
  let is_root := ty.root
  let e0 : EffectData :=
    { id := st.next_id
      parent := if is_root then none else st.current_effect.map (fun p => p.id)
      dom := none
      deps := none
      ty := ty
      status := .dirty
      inert := false
      ran := false
      elseif := false
      l := 0
      fn := some fn
      deriveds := none
      teardown := none
      ctx := st.current_component_context.map (fun c => c.id)
      transitions := none }
  let e1 := match st.current_effect with
            | some ce => { e0 with l := ce.l + 1 }
            | none => e0
  let stA := { st with next_id := st.next_id + 1 }
  let stB :=
    match st.current_reaction with
    | some rx =>
      if is_root then stA
      else { stA with current_reaction := some ⟨some (rx.effects.getD [] ++ [e1.id])⟩ }
    | none => stA
  if init then
    if sync then
      let prev := stB.is_flushing_effect
      let stC := { stB with is_flushing_effect := true }
      let r := execute_effect e1 stC
      match r.1 with
      | .ok e2 =>
        let e3 := { e2 with ran := true }
        (.ok e3, { r.2 with is_flushing_effect := prev, nodes := r.2.nodes ++ [e3] })
      | .error c =>
        (.error (.user c), { r.2 with is_flushing_effect := prev, nodes := r.2.nodes ++ [e1] })
    else
      let stC := schedule_effect e1 stB
      (.ok e1, { stC with nodes := stC.nodes ++ [e1] })
  else
    (.ok e1, { stB with nodes := stB.nodes ++ [e1] })

/-- Embedding of `user_effect` from `effects.js` (`$effect`): throws the
orphan-effect error `ERR_SVELTE_ORPHAN_EFFECT` when no effect is currently
executing; otherwise creation is deferred — not initialised, recorded on the
component context's `e` list — exactly when the current effect is a render
effect and the current component context exists and is not yet mounted. -/
def user_effect (fn : FnSpec) (st : Runtime) : (Except Thrown EffectData) × Runtime :=
  match st.current_effect with
  | none => (.error .orphan, st)
  | some ce =>
    let defer := ce.ty.render
      && (match st.current_component_context with
          | some c => !c.m
          | none => false)
    let r := create_effect EFFECT fn false (!defer) st
    match r.1 with
    | .ok e =>
      if defer then
        match r.2.current_component_context with
        | some c =>
          (.ok e, { r.2 with
                      current_component_context :=
                        some ({ c with e := some (c.e.getD [] ++ [e.id]) }) })
        | none => (.ok e, r.2)
      else (.ok e, r.2)
    | .error t => (.error t, r.2)

/-- Embedding of `pre_effect` from `effects.js`: a synchronous `PRE_EFFECT`. -/
def pre_effect (fn : FnSpec) (st : Runtime) : (Except Thrown EffectData) × Runtime :=
  create_effect PRE_EFFECT fn true true st

/-- Embedding of `user_pre_effect` from `effects.js` (`$effect.pre`): throws
the orphan-effect error when no effect is currently executing, and otherwise
behaves as `pre_effect`. -/
def user_pre_effect (fn : FnSpec) (st : Runtime) : (Except Thrown EffectData) × Runtime :=
  match st.current_effect with
  | none => (.error .orphan, st)
  | some _ => pre_effect fn st

/-- Embedding of `render_effect` from `effects.js`. -/
def render_effect (fn : FnSpec) (st : Runtime) : (Except Thrown EffectData) × Runtime :=
  create_effect RENDER_EFFECT fn true true st

/-- Embedding of `effect` from `effects.js`: an asynchronous user effect. -/
def effect (fn : FnSpec) (st : Runtime) : (Except Thrown EffectData) × Runtime :=
  create_effect EFFECT fn false true st

/-- Embedding of `block` from `effects.js`. -/
def block (fn : FnSpec) (st : Runtime) : (Except Thrown EffectData) × Runtime :=
  create_effect (RENDER_EFFECT.or BLOCK_EFFECT) fn true true st

/-- Embedding of `branch` from `effects.js`. -/
def branch (fn : FnSpec) (st : Runtime) : (Except Thrown EffectData) × Runtime :=
  create_effect (RENDER_EFFECT.or BRANCH_EFFECT) fn true true st

/-- Request produced by the closure `() => destroy_effect(effect)` that
`effect_root` returns: destroy the named effect when invoked. -/
inductive Cleanup where
  | destroy (id : Nat)
deriving DecidableEq, Repr

/-- Embedding of `effect_root` from `effects.js`: create a synchronous
`ROOT_EFFECT` whose body is `() => untrack(fn)`, and return, next to the
handle, the destroy request standing for the returned closure. -/
def effect_root (fn : FnSpec) (st : Runtime) :
    (Except Thrown (EffectData × Cleanup)) × Runtime :=
  let r := create_effect ROOT_EFFECT (.untracked fn) true true st
  match r.1 with
  | .ok e => (.ok (e, .destroy e.id), r.2)
  | .error t => (.error t, r.2)

/-- Thrown error code of a body description, if it throws. -/
def fn_throws : FnSpec → Option Nat
  | .ret _ => none
  | .raise c => some c
  | .untracked f => fn_throws f

/-- Predicate picking the execution events out of a trace. -/
def is_exec : Event → Bool
  | .executed _ => true
  | _ => false

/-- Is every node of the tree active, i.e. neither inert nor destroyed? -/
def all_active (e : Effect) : Bool :=
  e.nodes.all (fun d => !d.inert && !(d.status == Status.destroyed))

/-- Concrete effect data used by the witnesses: an active user effect with one
dep on source 100, a derived child, a teardown, a DOM handle, one global and
one local transition. -/
def wData : EffectData :=
  { id := 1, parent := none, dom := some 10, deps := some [(100, 1)],
    ty := EFFECT, status := .dirty, inert := false, ran := true, elseif := false,
    l := 0, fn := some (.ret none), deriveds := some [⟨7, some [(102, 1)]⟩],
    teardown := some 5, ctx := some 0,
    transitions := some [⟨20, true⟩, ⟨21, false⟩] }

/-- Concrete child data used by the witnesses: an active branch effect with a
local transition. -/
def wChild : EffectData :=
  { id := 2, parent := some 1, dom := none, deps := some [(101, 1)],
    ty := BRANCH_EFFECT, status := .clean, inert := false, ran := true,
    elseif := false, l := 1, fn := some (.ret none), deriveds := none,
    teardown := none, ctx := some 0, transitions := some [⟨22, false⟩] }

/-- Concrete two-node effect tree used by the witnesses. -/
def wTree : Effect := .mk wData (some [.mk wChild none])

/-- Concrete subscriber graph used by the witnesses, consistent with `wTree`:
every edge onto an id of the tree comes from one of that node's deps. -/
def wGraph : Graph := [(100, 1), (101, 2), (102, 7), (103, 9)]

/-- Concrete runtime state used by the witnesses: a render effect is executing
inside an unmounted component context, a reaction is collecting children, and
the flush flag is off. -/
def wState : Runtime :=
  { current_effect := some { wData with ty := RENDER_EFFECT, l := 3 }
    current_reaction := some ⟨none⟩
    current_component_context := some ⟨0, false, none⟩
    is_flushing_effect := false
    queue := []
    nodes := []
    log := []
    next_id := 5 }

/-- Variant of `wState` whose component context is already mounted. -/
def wStateM : Runtime :=
  { wState with current_component_context := some ⟨0, true, none⟩ }

/-- Variant of `wState` with no executing effect at all. -/
def wStateO : Runtime :=
  { wState with current_effect := none }

/-- Running a body produces exactly one body-execution event. -/
theorem run_fn_events (fn : FnSpec) (eid : Nat) (b : Bool) :
    ∃ b2, (run_fn fn eid b).2 = [Event.ranFn eid b2] := by
  induction fn generalizing b with
  | ret td => exact ⟨b, rfl⟩
  | raise c => exact ⟨b, rfl⟩
  | untracked f ih => simpa [run_fn] using ih false

/-- Running a body with tracking already suspended keeps it suspended. -/
theorem run_fn_false_events (fn : FnSpec) (eid : Nat) :
    (run_fn fn eid false).2 = [Event.ranFn eid false] := by
  induction fn with
  | ret td => rfl
  | raise c => rfl
  | untracked f ih => simpa [run_fn] using ih

/-- A body that throws makes `run_fn` report exactly that error. -/
theorem run_fn_throws (fn : FnSpec) (eid : Nat) (b : Bool) (c : Nat)
    (h : fn_throws fn = some c) : (run_fn fn eid b).1 = Except.error c := by
  induction fn generalizing b with
  | ret td => simp [fn_throws] at h
  | raise c2 =>
    simp [fn_throws] at h
    simp [run_fn, h]
  | untracked f ih => simpa [run_fn] using ih false (by simpa [fn_throws] using h)

/-- A body that does not throw makes `run_fn` return a teardown option. -/
theorem run_fn_ok (fn : FnSpec) (eid : Nat) (b : Bool)
    (h : fn_throws fn = none) : ∃ td, (run_fn fn eid b).1 = Except.ok td := by
  induction fn generalizing b with
  | ret td => exact ⟨td, rfl⟩
  | raise c => simp [fn_throws] at h
  | untracked f ih => simpa [run_fn] using ih false (by simpa [fn_throws] using h)

/-- C4: for every effect-creation call, the new node's parent is the current
effect (null for the root kind); when a reaction is currently executing and the
kind is not root, the node is registered as a child of that reaction; if the
synchronous flag is set the effect is executed immediately inline, otherwise it
is created with dirty status and enqueued on the scheduler. -/
theorem claim_C4 (ty : EffectType) (fn : FnSpec) (sync : Bool) (st : Runtime) :
    (∀ e, (create_effect ty fn sync true st).1 = Except.ok e →
        e.parent = (if ty.root then none else st.current_effect.map (fun p => p.id))
          ∧ e.id = st.next_id)
    ∧ (create_effect ty fn sync true st).2.current_reaction =
        (match st.current_reaction with
         | some rx =>
             if ty.root then some rx
             else some ⟨some (rx.effects.getD [] ++ [st.next_id])⟩
         | none => none)
    ∧ (sync = true →
        (create_effect ty fn sync true st).2.log
            = st.log ++ (run_fn fn st.next_id true).2
          ∧ (create_effect ty fn sync true st).2.queue = st.queue)
    ∧ (sync = false →
        (create_effect ty fn sync true st).1 ≠ Except.error (Thrown.orphan)
          ∧ (∀ e, (create_effect ty fn sync true st).1 = Except.ok e →
              e.status = Status.dirty)
          ∧ (create_effect ty fn sync true st).2.queue = st.queue ++ [st.next_id]
          ∧ Event.scheduled st.next_id ∈ (create_effect ty fn sync true st).2.log) := by
  unfold create_effect execute_effect schedule_effect
  cases hty : ty.root <;>
    cases hce : st.current_effect <;>
      cases hcr : st.current_reaction <;>
        cases sync <;>
          cases hr : (run_fn fn st.next_id true).1 <;>
            simp_all

/-- C4 witness: at the concrete state `wState` (no hypotheses to discharge —
the implications are instantiated), an asynchronous user effect gets parent 5's
current effect, is registered on the reaction, created dirty and enqueued. -/
theorem claim_C4_witness :
    (create_effect EFFECT (.ret none) false true wState).2.queue = wState.queue ++ [5]
      ∧ (∀ e, (create_effect EFFECT (.ret none) false true wState).1 = Except.ok e →
          e.status = Status.dirty) := by
  have h := claim_C4 EFFECT (.ret none) false wState
  exact ⟨h.2.2.2 rfl |>.2.2.1, fun e he => (h.2.2.2 rfl).2.1 e he⟩

/-- C5: creating a tracked user effect (`user_effect` or `user_pre_effect`)
raises the orphan-effect error exactly when there is no currently executing
effect to own it, and the error is the synchronous result of the call. -/
theorem claim_C5 (fn : FnSpec) (st : Runtime) :
    ((user_effect fn st).1 = Except.error Thrown.orphan ↔ st.current_effect = none)
    ∧ ((user_pre_effect fn st).1 = Except.error Thrown.orphan ↔ st.current_effect = none) := by
  cases hce : st.current_effect with
  | none => simp [user_effect, user_pre_effect, hce]
  | some ce =>
    constructor
    · simp only [user_effect, hce]
      constructor
      · intro h
        set r := create_effect EFFECT fn false
            (!(ce.ty.render && (match st.current_component_context with
                                | some c => !c.m
                                | none => false))) st with hrdef
        have h4 := claim_C4 EFFECT fn false st
        rcases hr : r.1 with t | e
        · exfalso
          rcases t with _ | c
          · revert hr
            unfold r
            rcases hi : (ce.ty.render && (match st.current_component_context with
                                | some c => !c.m
                                | none => false)) with _ | _
            · simpa [hi] using (h4.2.2.2 rfl).1
            · simp [create_effect, hi]
          · revert hr
            unfold r
            rcases hi : (ce.ty.render && (match st.current_component_context with
                                | some c => !c.m
                                | none => false)) with _ | _
            · simp [create_effect, hi]
            · simp [create_effect, hi]
        · simp only [hr] at h
          split at h
          · rcases hctx : r.2.current_component_context
                with _ | c <;> simp [hctx] at h
          · simp at h
      · intro h
        exact absurd h (by simp)
    · simp only [user_pre_effect, hce]
      constructor
      · intro h
        exfalso
        revert h
        simp only [pre_effect, create_effect, execute_effect]
        cases hrf : (run_fn fn st.next_id true).1 <;> simp_all
      · intro h
        exact absurd h (by simp)

/-- C5 witness: with no executing effect (`wStateO`) the orphan error is
raised; with one (`wState`) `user_pre_effect` does not raise it. -/
theorem claim_C5_witness :
    wStateO.current_effect = none
      ∧ (user_effect (.ret none) wStateO).1 = Except.error Thrown.orphan
      ∧ ¬((user_pre_effect (.ret none) wState).1 = Except.error Thrown.orphan) := by
  refine ⟨rfl, (claim_C5 (.ret none) wStateO).1.mpr rfl, fun h => ?_⟩
  have h2 := (claim_C5 (.ret none) wState).2.mp h
  simp [wState] at h2

/-- C6: a user effect created while a render effect is executing, before the
owning component context is mounted, is not scheduled at creation (queue and
log untouched) and is recorded on the component context's deferred list; in
every other case it is scheduled immediately. -/
theorem claim_C6 (fn : FnSpec) (st : Runtime) (ce : EffectData)
    (h : st.current_effect = some ce) :
    ((ce.ty.render && (match st.current_component_context with
                       | some c => !c.m
                       | none => false)) = true →
       (user_effect fn st).2.queue = st.queue
         ∧ (user_effect fn st).2.log = st.log
         ∧ (∀ c, st.current_component_context = some c →
             (user_effect fn st).2.current_component_context
               = some ({ c with e := some (c.e.getD [] ++ [st.next_id]) })))
    ∧ ((ce.ty.render && (match st.current_component_context with
                       | some c => !c.m
                       | none => false)) = false →
       (user_effect fn st).2.queue = st.queue ++ [st.next_id]
         ∧ Event.scheduled st.next_id ∈ (user_effect fn st).2.log) := by
  constructor
  · intro hd
    rcases hctx : st.current_component_context with _ | c
    · rw [hctx] at hd
      simp at hd
    · rw [hctx] at hd
      simp only [Bool.and_eq_true, Bool.not_eq_true'] at hd
      obtain ⟨hrender, hm⟩ := hd
      rcases hcr : st.current_reaction with _ | rx <;>
        (refine ⟨?_, ?_, ?_⟩ <;>
          simp [user_effect, h, hctx, hcr, create_effect, hrender, hm, EFFECT])
  · intro hd
    rcases hcr : st.current_reaction with _ | rx <;>
      (constructor <;>
        simp [user_effect, h, hd, hcr, create_effect, schedule_effect, EFFECT])

/-- C6 witness: at `wState` (render effect executing, context unmounted) the
user effect is deferred and recorded; at `wStateM` (context mounted) it is
scheduled immediately. -/
theorem claim_C6_witness :
    wState.current_effect = some ({ wData with ty := RENDER_EFFECT, l := 3 })
      ∧ (user_effect (.ret none) wState).2.queue = wState.queue
      ∧ (user_effect (.ret none) wState).2.current_component_context
          = some ⟨0, false, some [5]⟩
      ∧ (user_effect (.ret none) wStateM).2.queue = wStateM.queue ++ [5] := by
  have h1 := claim_C6 (.ret none) wState ({ wData with ty := RENDER_EFFECT, l := 3 }) rfl
  have h2 := claim_C6 (.ret none) wStateM ({ wData with ty := RENDER_EFFECT, l := 3 }) rfl
  refine ⟨rfl, (h1.1 (by simp [wState, wData, RENDER_EFFECT])).1, ?_, ?_⟩
  · have h3 := (h1.1 (by simp [wState, wData, RENDER_EFFECT])).2.2 ⟨0, false, none⟩ rfl
    simpa [wState] using h3
  · exact (h2.2 (by simp [wStateM, wState, wData, RENDER_EFFECT])).1

/-- C7: an exception raised inside an effect body during a synchronous
creation propagates synchronously out of the call as exactly that error, the
body runs exactly once (single execution event, no retry), and the effect is
not left enqueued. -/
theorem claim_C7 (ty : EffectType) (fn : FnSpec) (st : Runtime) (c : Nat)
    (h : fn_throws fn = some c) :
    (create_effect ty fn true true st).1 = Except.error (Thrown.user c)
    ∧ (∃ b, (create_effect ty fn true true st).2.log
          = st.log ++ [Event.ranFn st.next_id b])
    ∧ (create_effect ty fn true true st).2.queue = st.queue := by
  have hrf := run_fn_throws fn st.next_id true c h
  obtain ⟨b, hev⟩ := run_fn_events fn st.next_id true
  unfold create_effect execute_effect
  cases hty : ty.root <;> cases hce : st.current_effect <;>
    cases hcr : st.current_reaction <;> simp_all

/-- C7 witness: a pre-effect body throwing code 42 at `wState` surfaces as
`Thrown.user 42`, after a single body run, leaving the queue alone. -/
theorem claim_C7_witness :
    fn_throws (.raise 42) = some 42
      ∧ (create_effect PRE_EFFECT (.raise 42) true true wState).1
          = Except.error (Thrown.user 42) := by
  exact ⟨rfl, (claim_C7 PRE_EFFECT (.raise 42) wState 42 rfl).1⟩

/-- C10: for every synchronous effect creation, `is_flushing_effect` is
restored to its pre-call value when `create_effect` returns — also when the
body throws — and the ran-once flag ends up set on the effect exactly when the
inline execution completed without throwing. -/
theorem claim_C10 (ty : EffectType) (fn : FnSpec) (st : Runtime) :
    (create_effect ty fn true true st).2.is_flushing_effect = st.is_flushing_effect
    ∧ (∀ e, (create_effect ty fn true true st).1 = Except.ok e →
        e.ran = true ∧ (create_effect ty fn true true st).2.nodes = st.nodes ++ [e])
    ∧ (∀ t, (create_effect ty fn true true st).1 = Except.error t →
        ∃ eN, (create_effect ty fn true true st).2.nodes = st.nodes ++ [eN]
          ∧ eN.ran = false) := by
  unfold create_effect execute_effect
  cases hty : ty.root <;> cases hce : st.current_effect <;>
    cases hcr : st.current_reaction <;>
      cases hr : (run_fn fn st.next_id true).1 <;> simp_all

/-- C10 witness: at `wState` with the flush flag off, a throwing synchronous
creation still returns with the flag off, and the heap record is not marked
ran. -/
theorem claim_C10_witness :
    (create_effect PRE_EFFECT (.raise 7) true true wState).2.is_flushing_effect
        = wState.is_flushing_effect
      ∧ (∃ eN, (create_effect PRE_EFFECT (.raise 7) true true wState).2.nodes
            = wState.nodes ++ [eN] ∧ eN.ran = false) := by
  have h := claim_C10 PRE_EFFECT (.raise 7) wState
  refine ⟨h.1, h.2.2 (Thrown.user 7) ?_⟩
  simp [create_effect, execute_effect, run_fn, wState]

/-- C9: every root-kind creation has a null parent and leaves the current
reaction's child registrations untouched (so tearing down or re-running the
enclosing effect does not destroy it); `effect_root` runs its body untracked,
immediately and synchronously, and returns the destroy request for the root
effect. -/
theorem claim_C9 (ty : EffectType) (fn : FnSpec) (sync flag : Bool) (st : Runtime) :
    (ty.root = true →
       (∀ e, (create_effect ty fn sync flag st).1 = Except.ok e → e.parent = none)
         ∧ (create_effect ty fn sync flag st).2.current_reaction = st.current_reaction)
    ∧ (fn_throws fn = none →
       ∃ e, (effect_root fn st).1 = Except.ok (e, Cleanup.destroy e.id)
         ∧ e.parent = none ∧ e.ran = true
         ∧ (effect_root fn st).2.current_reaction = st.current_reaction
         ∧ (effect_root fn st).2.log = st.log ++ [Event.ranFn st.next_id false]
         ∧ (effect_root fn st).2.queue = st.queue) := by
  constructor
  · intro hroot
    unfold create_effect execute_effect schedule_effect
    cases hce : st.current_effect <;> cases hcr : st.current_reaction <;>
      cases sync <;> cases flag <;>
        cases hr : (run_fn fn st.next_id true).1 <;> simp_all
  · intro h
    obtain ⟨td, hok⟩ := run_fn_ok fn st.next_id false (by simpa [fn_throws] using h)
    have hev := run_fn_false_events fn st.next_id
    unfold effect_root create_effect execute_effect
    cases hce : st.current_effect <;> cases hcr : st.current_reaction <;>
      simp_all [run_fn, ROOT_EFFECT] <;> exact ⟨_, ⟨rfl, rfl⟩, rfl, rfl⟩

/-- C9 witness: at `wState` (which has a live reaction collecting children),
`effect_root` with a returning body yields the root handle and its destroyer,
with null parent, ran synchronously and untracked, reaction untouched. -/
theorem claim_C9_witness :
    fn_throws (.ret (some 3)) = none
      ∧ (∃ e, (effect_root (.ret (some 3)) wState).1 = Except.ok (e, Cleanup.destroy e.id)
          ∧ e.parent = none ∧ e.ran = true
          ∧ (effect_root (.ret (some 3)) wState).2.current_reaction = wState.current_reaction
          ∧ (effect_root (.ret (some 3)) wState).2.log
              = wState.log ++ [Event.ranFn wState.next_id false]
          ∧ (effect_root (.ret (some 3)) wState).2.queue = wState.queue) := by
  exact ⟨rfl, (claim_C9 ROOT_EFFECT (.ret (some 3)) true true wState).2 rfl⟩

/-- Destroying the derived children logs exactly one destruction per derived,
in order. -/
theorem destroy_deriveds_log (ds : List DerivedChild) (g : Graph) :
    (destroy_deriveds ds g).2 = ds.map (fun dv => Event.destroyedNode dv.id) := by
  induction ds generalizing g with
  | nil => rfl
  | cons dv rest ih => simp [destroy_deriveds, ih]

/-- Destroying the derived children filters out of the graph exactly the edges
from a derived's recorded deps onto that derived. -/
theorem destroy_deriveds_graph (ds : List DerivedChild) (g : Graph) :
    (destroy_deriveds ds g).1
      = g.filter (fun p =>
          !(ds.any (fun dv => p.2 == dv.id && (dv.deps.getD []).any (fun q => q.1 == p.1)))) := by
  induction ds generalizing g with
  | nil => simp [destroy_deriveds]
  | cons dv rest ih =>
    show (destroy_deriveds rest (remove_reactions dv.deps dv.id g)).1 = _
    rw [ih]
    unfold remove_reactions
    rw [List.filter_filter]
    refine List.filter_congr (fun p hp => ?_)
    simp only [List.any_cons]
    cases h1 : (p.2 == dv.id && (dv.deps.getD []).any (fun q => q.1 == p.1)) <;>
      cases h2 : rest.any (fun dv => p.2 == dv.id && (dv.deps.getD []).any (fun q => q.1 == p.1)) <;>
        simp [h1, h2]

mutual

/-- Graph effect of `destroy_effect`: exactly the edges removed by some node or
derived of the subtree disappear, and nothing else changes. -/
theorem destroy_graph (e : Effect) (g : Graph) :
    (destroy_effect e g).2.1 = g.filter (fun p => !(e.removes p)) := by
  match e with
  | .mk d cs =>
    rw [show (destroy_effect (.mk d cs) g).2.1
          = remove_reactions d.deps d.id
              (destroy_effect_list (cs.getD [])
                (destroy_deriveds (d.deriveds.getD []) g).1).1
        by rw [destroy_effect]]
    rw [destroy_graph_list (cs.getD []), destroy_deriveds_graph]
    unfold remove_reactions
    rw [List.filter_filter, List.filter_filter]
    refine List.filter_congr (fun p hp => ?_)
    simp only [Effect.removes, Effect.nodes, List.any_cons, data_removes]
    cases h1 : (d.deriveds.getD []).any
        (fun dv => p.2 == dv.id && (dv.deps.getD []).any (fun q => q.1 == p.1)) <;>
      cases h2 : (nodes_list (cs.getD [])).any (fun d2 => data_removes d2 p) <;>
        cases h3 : (p.2 == d.id && (d.deps.getD []).any (fun q => q.1 == p.1)) <;>
          simp [h1, h2, h3, data_removes]
termination_by sizeOf e
decreasing_by simp_wf; exact Nat.lt_of_le_of_lt (sizeOf_option_getD _) (by omega)

/-- Graph effect of destroying a list of children. -/
theorem destroy_graph_list (es : List Effect) (g : Graph) :
    (destroy_effect_list es g).1
      = g.filter (fun p => !((nodes_list es).any (fun d => data_removes d p))) := by
  match es with
  | [] => simp [destroy_effect_list, nodes_list]
  | c :: rest =>
    rw [show (destroy_effect_list (c :: rest) g).1
          = (destroy_effect_list rest (destroy_effect c g).2.1).1
        by rw [destroy_effect_list]]
    rw [destroy_graph_list rest, destroy_graph c]
    rw [List.filter_filter]
    refine List.filter_congr (fun p hp => ?_)
    simp only [Effect.removes, nodes_list, List.any_append]
    cases h1 : c.nodes.any (fun d => data_removes d p) <;>
      cases h2 : (nodes_list rest).any (fun d => data_removes d p) <;>
        simp [h1, h2]
termination_by sizeOf es
decreasing_by all_goals simp_wf <;> omega

end

/-- Destroying a tree returns the root marked destroyed with all internal
links nulled and the children detached. -/
theorem destroy_result (e : Effect) (g : Graph) :
    (destroy_effect e g).1 = Effect.mk (nulled e.data) none := by
  match e with
  | .mk d cs => simp [destroy_effect, Effect.data]

mutual

/-- Every node of a destroyed tree contributes its own destruction events (its
status flip, transition stops, teardown and DOM removal) and one destruction
event per derived child to the trace. -/
theorem destroy_log_mem (e : Effect) (g : Graph) (d : EffectData) (hd : d ∈ e.nodes) :
    (∀ ev ∈ destroy_own_events d, ev ∈ (destroy_effect e g).2.2)
      ∧ (∀ dv ∈ d.deriveds.getD [], Event.destroyedNode dv.id ∈ (destroy_effect e g).2.2) := by
  match e with
  | .mk d0 cs =>
    rw [show (destroy_effect (.mk d0 cs) g).2.2
          = (destroy_deriveds (d0.deriveds.getD []) g).2
              ++ (destroy_effect_list (cs.getD [])
                    (destroy_deriveds (d0.deriveds.getD []) g).1).2
              ++ destroy_own_events d0
        by rw [destroy_effect]]
    rw [show (Effect.mk d0 cs).nodes = d0 :: nodes_list (cs.getD [])
        by rw [Effect.nodes]] at hd
    rcases List.mem_cons.mp hd with h | h
    · subst h
      constructor
      · intro ev hev
        simp [List.mem_append, hev]
      · intro dv hdv
        have h2 : Event.destroyedNode dv.id ∈ (destroy_deriveds (d.deriveds.getD []) g).2 := by
          rw [destroy_deriveds_log]
          exact List.mem_map_of_mem _ hdv
        simp [List.mem_append, h2]
    · have ih := destroy_log_mem_list (cs.getD [])
        ((destroy_deriveds (d0.deriveds.getD []) g).1) d h
      constructor
      · intro ev hev
        have h2 := ih.1 ev hev
        simp [List.mem_append, h2]
      · intro dv hdv
        have h2 := ih.2 dv hdv
        simp [List.mem_append, h2]
termination_by sizeOf e
decreasing_by simp_wf; exact Nat.lt_of_le_of_lt (sizeOf_option_getD _) (by omega)

/-- List version of `destroy_log_mem`. -/
theorem destroy_log_mem_list (es : List Effect) (g : Graph) (d : EffectData)
    (hd : d ∈ nodes_list es) :
    (∀ ev ∈ destroy_own_events d, ev ∈ (destroy_effect_list es g).2)
      ∧ (∀ dv ∈ d.deriveds.getD [], Event.destroyedNode dv.id ∈ (destroy_effect_list es g).2) := by
  match es with
  | [] =>
    rw [nodes_list] at hd
    exact absurd hd (List.not_mem_nil d)
  | c :: rest =>
    rw [show (destroy_effect_list (c :: rest) g).2
          = (destroy_effect c g).2.2 ++ (destroy_effect_list rest (destroy_effect c g).2.1).2
        by rw [destroy_effect_list]]
    rw [show nodes_list (c :: rest) = c.nodes ++ nodes_list rest by rw [nodes_list]] at hd
    rcases List.mem_append.mp hd with h | h
    · have ih := destroy_log_mem c g d h
      exact ⟨fun ev hev => by simp [List.mem_append, ih.1 ev hev],
             fun dv hdv => by simp [List.mem_append, ih.2 dv hdv]⟩
    · have ih := destroy_log_mem_list rest (destroy_effect c g).2.1 d h
      exact ⟨fun ev hev => by simp [List.mem_append, ih.1 ev hev],
             fun dv hdv => by simp [List.mem_append, ih.2 dv hdv]⟩
termination_by sizeOf es
decreasing_by all_goals simp_wf <;> omega

end

/-- The status flip of a node is in its own destruction trace. -/
theorem own_events_self (d : EffectData) :
    Event.destroyedNode d.id ∈ destroy_own_events d := by
  simp [destroy_own_events]

/-- Each transition stop of a node is in its own destruction trace. -/
theorem own_events_stop (d : EffectData) (t : Transition)
    (ht : t ∈ d.transitions.getD []) : Event.stopT t.id ∈ destroy_own_events d := by
  simp only [destroy_own_events, List.mem_cons, List.mem_append]
  exact Or.inr (Or.inl (Or.inl (List.mem_map_of_mem _ ht)))

/-- The teardown invocation of a node that has one is in its destruction
trace. -/
theorem own_events_teardown (d : EffectData) (h : d.teardown.isSome = true) :
    Event.teardownRun d.id ∈ destroy_own_events d := by
  rcases Option.isSome_iff_exists.mp h with ⟨td, htd⟩
  simp [destroy_own_events, htd, List.mem_append]

/-- The DOM removal of a node that has a DOM handle is in its destruction
trace. -/
theorem own_events_dom (d : EffectData) (h : d.dom.isSome = true) :
    Event.removeDom d.id ∈ destroy_own_events d := by
  rcases Option.isSome_iff_exists.mp h with ⟨dm, hdm⟩
  simp [destroy_own_events, hdm, List.mem_append]

/-- C1: `destroy_effect` destroys all children first (depth-first: the node's
own events come after the deriveds' and children's), removes the node from
every dep's subscriber set (the graph change is exactly that removal), invokes
the captured teardown, removes the host DOM handle if present, stops every
attached transition, marks the status destroyed and nulls the internal links;
consequently — under the graph consistency hypothesis that an id of the
subtree only ever subscribes to sources recorded in that node's deps — every
effect and derived of the subtree is destroyed and no id of the subtree
remains in any source's subscriber set. -/
theorem claim_C1 (e : Effect) (g : Graph)
    (hcons : ∀ d ∈ e.nodes, ∀ p ∈ g, p.2 ∈ data_ids d → data_removes d p = true) :
    (destroy_effect e g).1 = Effect.mk (nulled e.data) none
    ∧ (destroy_effect e g).2.1 = g.filter (fun p => !(e.removes p))
    ∧ (destroy_effect e g).2.2
        = (destroy_deriveds (e.data.deriveds.getD []) g).2
            ++ (destroy_effect_list e.childList
                 (destroy_deriveds (e.data.deriveds.getD []) g).1).2
            ++ destroy_own_events e.data
    ∧ (∀ d ∈ e.nodes,
         Event.destroyedNode d.id ∈ (destroy_effect e g).2.2
         ∧ (∀ dv ∈ d.deriveds.getD [], Event.destroyedNode dv.id ∈ (destroy_effect e g).2.2)
         ∧ (∀ t ∈ d.transitions.getD [], Event.stopT t.id ∈ (destroy_effect e g).2.2)
         ∧ (d.teardown.isSome = true → Event.teardownRun d.id ∈ (destroy_effect e g).2.2)
         ∧ (d.dom.isSome = true → Event.removeDom d.id ∈ (destroy_effect e g).2.2))
    ∧ (∀ p ∈ (destroy_effect e g).2.1, ¬(p.2 ∈ e.allIds)) := by
  refine ⟨destroy_result e g, destroy_graph e g, ?_, ?_, ?_⟩
  · match e with
    | .mk d cs => simp [destroy_effect, Effect.data, Effect.childList, Effect.effects]
  · intro d hd
    have h := destroy_log_mem e g d hd
    exact ⟨h.1 _ (own_events_self d), h.2,
           fun t ht => h.1 _ (own_events_stop d t ht),
           fun htd => h.1 _ (own_events_teardown d htd),
           fun hdm => h.1 _ (own_events_dom d hdm)⟩
  · intro p hp hmem
    rw [destroy_graph e g] at hp
    have hpg := (List.mem_filter.mp hp).1
    have hrem : e.removes p = false := by
      have h2 := (List.mem_filter.mp hp).2
      simpa using h2
    rcases List.mem_flatMap.mp hmem with ⟨d, hd, hpd⟩
    have : e.removes p = true :=
      List.any_eq_true.mpr ⟨d, hd, hcons d hd p hpg hpd⟩
    simp [this] at hrem

/-- C1 witness: the concrete tree `wTree` in the consistent graph `wGraph`
satisfies the consistency hypothesis, and destroying it leaves no id of the
tree (effects 1 and 2, derived 7) subscribed anywhere. -/
theorem claim_C1_witness :
    (∀ d ∈ wTree.nodes, ∀ p ∈ wGraph, p.2 ∈ data_ids d → data_removes d p = true)
    ∧ (∀ p ∈ (destroy_effect wTree wGraph).2.1, ¬(p.2 ∈ wTree.allIds)) := by
  have hW : ∀ d ∈ wTree.nodes, ∀ p ∈ wGraph, p.2 ∈ data_ids d → data_removes d p = true := by
    intro d hd p hp
    simp [wTree, Effect.nodes, nodes_list] at hd
    simp [wGraph] at hp
    rcases hd with h | h <;> subst h <;>
      rcases hp with h2 | h2 | h2 | h2 <;> subst h2 <;> decide
  exact ⟨hW, (claim_C1 wTree wGraph hW).2.2.2.2⟩

mutual

/-- Tree part of pausing agrees with the claim wording `mark_inert`. -/
theorem pause_tree_eq (e : Effect) (loc : Bool) :
    (pause_children e loc).1 = mark_inert e := by
  match e with
  | .mk d cs =>
    rw [pause_children, mark_inert]
    cases h : d.inert <;>
      simp [h, pause_tree_eq_list (cs.getD []) loc]
termination_by sizeOf e
decreasing_by simp_wf; exact Nat.lt_of_le_of_lt (sizeOf_option_getD _) (by omega)

/-- List version of `pause_tree_eq`; the tree result does not depend on the
local flag. -/
theorem pause_tree_eq_list (es : List Effect) (loc : Bool) :
    (pause_children_list es loc).1 = mark_inert_list es := by
  match es with
  | [] => rw [pause_children_list, mark_inert_list]
  | c :: rest =>
    rw [pause_children_list, mark_inert_list]
    simp [pause_tree_eq c (c.transparent && loc), pause_tree_eq_list rest loc]
termination_by sizeOf es
decreasing_by all_goals simp_wf <;> omega

end

mutual

/-- Transitions collected by a pause agree with the claim wording: the
transitions of the reached nodes that are global or local within the family. -/
theorem pause_collect_eq (e : Effect) (fam : Bool) :
    (pause_children e fam).2
      = (pause_reached e fam).flatMap
          (fun p => (p.1.transitions.getD []).filter (fun t => t.is_global || p.2)) := by
  match e with
  | .mk d cs =>
    rw [pause_children, pause_reached]
    cases h : d.inert <;> simp [h]
    rw [pause_collect_eq_list (cs.getD []) fam]
termination_by sizeOf e
decreasing_by simp_wf; exact Nat.lt_of_le_of_lt (sizeOf_option_getD _) (by omega)

/-- List version of `pause_collect_eq`. -/
theorem pause_collect_eq_list (es : List Effect) (fam : Bool) :
    (pause_children_list es fam).2
      = (pause_reached_list es fam).flatMap
          (fun p => (p.1.transitions.getD []).filter (fun t => t.is_global || p.2)) := by
  match es with
  | [] =>
    rw [pause_children_list, pause_reached_list]
    simp
  | c :: rest =>
    rw [pause_children_list, pause_reached_list]
    have hb : (fam && c.transparent) = (c.transparent && fam) := Bool.and_comm fam c.transparent
    simp [hb, pause_collect_eq c (c.transparent && fam), pause_collect_eq_list rest fam]
termination_by sizeOf es
decreasing_by all_goals simp_wf <;> omega

end

/-- A countdown that has already fired stays fired and exhausted. -/
theorem out_signals_zero_state (k : Nat) : out_signals k ⟨0, true⟩ = ⟨0, true⟩ := by
  induction k with
  | zero => rfl
  | succ k ih => simpa [out_signals, out_check] using ih

/-- A countdown from `r > 0` fires exactly when at least `r` completion
signals have arrived. -/
theorem out_signals_fired (k r : Nat) (h : 0 < r) :
    (out_signals k ⟨r, false⟩).fired = decide (r ≤ k) := by
  induction k generalizing r with
  | zero =>
    rw [out_signals]
    have hd : decide (r ≤ 0) = false := by
      simp only [decide_eq_false_iff_not]
      omega
    rw [hd]
  | succ k ih =>
    rw [out_signals]
    rcases Nat.lt_or_ge 1 r with hr | hr
    · have hstep : out_check ⟨r, false⟩ = ⟨r - 1, false⟩ := by
        simp only [out_check, Bool.false_or]
        have : (r - 1 == 0) = false := by
          simp only [beq_eq_false_iff_ne, ne_eq]
          omega
        rw [this]
      rw [hstep, ih (r - 1) (by omega)]
      simp only [decide_eq_decide]
      omega
    · have hr1 : r = 1 := by omega
      subst hr1
      have hstep : out_check ⟨1, false⟩ = ⟨0, true⟩ := by
        simp [out_check]
      rw [hstep, out_signals_zero_state]
      simp

/-- C2: `pause_effect` walks the subtree flipping the inert flag on every node
not already inert (skipping inert subtrees), collects exactly the transitions
that are global, or local and reached only through transparent (branch or
else-if) children; the deferred destroy-and-callback fires only after every
collected transition signals completion, and immediately when none were
collected; the completion function performs the full destroy of the paused
subtree followed by the callback. -/
theorem claim_C2 (e : Effect) :
    (pause_effect e).tree = mark_inert e
    ∧ (pause_effect e).collected = pause_collect_spec e
    ∧ (pause_effect e).out = out_start (pause_effect e).collected.length
    ∧ ((pause_effect e).collected = [] → (pause_effect e).out.fired = true)
    ∧ ((pause_effect e).collected ≠ [] →
        ∀ k, (out_signals k (pause_effect e).out).fired
          = decide ((pause_effect e).collected.length ≤ k))
    ∧ (∀ g, pause_fire (pause_effect e) g
          = ((destroy_effect (pause_effect e).tree g).1,
             (destroy_effect (pause_effect e).tree g).2.1,
             (destroy_effect (pause_effect e).tree g).2.2 ++ [Event.callbackRun])) := by
  refine ⟨?_, ?_, rfl, ?_, ?_, fun g => rfl⟩
  · simpa [pause_effect] using pause_tree_eq e true
  · simpa [pause_effect, pause_collect_spec] using pause_collect_eq e true
  · intro hnil
    simp [pause_effect] at hnil ⊢
    simp [hnil, out_start]
  · intro hne k
    have hlen : 0 < (pause_effect e).collected.length := by
      cases hc : (pause_effect e).collected with
      | nil => exact absurd hc hne
      | cons a rest => simp [hc]
    have hstart : out_start (pause_effect e).collected.length
        = ⟨(pause_effect e).collected.length, false⟩ := by
      simp [out_start, hlen]
    calc (out_signals k (pause_effect e).out).fired
        = (out_signals k ⟨(pause_effect e).collected.length, false⟩).fired := by
          rw [show (pause_effect e).out = out_start (pause_effect e).collected.length from rfl,
              hstart]
      _ = decide ((pause_effect e).collected.length ≤ k) :=
          out_signals_fired k _ hlen

/-- C2 witness: pausing the concrete tree `wTree` collects its global
transition 20, its local transition 21 (the pause starts in its own family)
and the local transition 22 of the transparent branch child; with three
pending transitions the destroy fires after the third signal and not before. -/
theorem claim_C2_witness :
    (pause_effect wTree).collected ≠ []
    ∧ (out_signals 3 (pause_effect wTree).out).fired = true
    ∧ (out_signals 2 (pause_effect wTree).out).fired = false := by
  have hcol : (pause_effect wTree).collected = [⟨20, true⟩, ⟨21, false⟩, ⟨22, false⟩] := by
    simp [pause_effect, wTree, pause_children, pause_children_list, wData, wChild,
          Effect.transparent, Effect.data, BRANCH_EFFECT, EFFECT]
  have hne : (pause_effect wTree).collected ≠ [] := by
    rw [hcol]
    simp
  have hfire := (claim_C2 wTree).2.2.2.2.1 hne
  refine ⟨hne, ?_, ?_⟩
  · have h3 := hfire 3
    rw [hcol] at h3
    simpa using h3
  · have h2 := hfire 2
    rw [hcol] at h2
    simpa using h2

/-- Dirtiness does not look at the inert flag. -/
theorem check_dirtiness_inert (d : EffectData) (b : Bool) (v : List (Nat × Nat)) :
    check_dirtiness { d with inert := b } v = check_dirtiness d v := by
  cases d
  rfl

mutual

/-- The one-pass `resume_children` computes exactly the claim-worded tree
transform and event trace. -/
theorem resume_eq (e : Effect) (loc : Bool) (v : List (Nat × Nat)) :
    resume_children e loc v = (resume_tree_spec e v, resume_log_spec e loc v) := by
  match e with
  | .mk d cs =>
    rw [resume_children, resume_tree_spec, resume_log_spec]
    cases h : d.inert
    · simp [h]
    · simp only [h, Bool.not_true, Bool.false_eq_true, if_false, check_dirtiness_inert]
      rw [resume_eq_list (cs.getD []) loc v]
      cases hc : check_dirtiness d v <;> simp [hc]
termination_by sizeOf e
decreasing_by simp_wf; exact Nat.lt_of_le_of_lt (sizeOf_option_getD _) (by omega)

/-- List version of `resume_eq`. -/
theorem resume_eq_list (es : List Effect) (loc : Bool) (v : List (Nat × Nat)) :
    resume_children_list es loc v
      = (resume_tree_spec_list es v, resume_log_spec_list es loc v) := by
  match es with
  | [] =>
    rw [resume_children_list, resume_tree_spec_list, resume_log_spec_list]
  | c :: rest =>
    rw [resume_children_list, resume_tree_spec_list, resume_log_spec_list]
    simp [resume_eq c (c.transparent && loc) v, resume_eq_list rest loc v]
termination_by sizeOf es
decreasing_by all_goals simp_wf <;> omega

end

/-- Inbound-transition events are not execution events. -/
theorem filter_exec_ins (ts : List Transition) :
    ((ts.map (fun t => Event.transIn t.id)).filter is_exec) = [] := by
  induction ts with
  | nil => rfl
  | cons t rest ih => simp [is_exec, ih]

mutual

/-- Execution events of a resume trace: exactly one per reached node whose
dependencies changed while it was inert, in traversal order. -/
theorem resume_execs (e : Effect) (loc : Bool) (v : List (Nat × Nat)) :
    (resume_log_spec e loc v).filter is_exec
      = ((resume_reached e loc).filter (fun p => check_dirtiness p.1 v)).map
          (fun p => Event.executed p.1.id) := by
  match e with
  | .mk d cs =>
    rw [resume_log_spec, resume_reached]
    cases h : d.inert
    · simp [h]
    · simp only [h, Bool.not_true, Bool.false_eq_true, if_false, List.filter_append,
                 filter_exec_ins, List.append_nil, List.filter_cons]
      rw [resume_execs_list (cs.getD []) loc v]
      cases hc : check_dirtiness d v <;> simp [hc, is_exec]
termination_by sizeOf e
decreasing_by simp_wf; exact Nat.lt_of_le_of_lt (sizeOf_option_getD _) (by omega)

/-- List version of `resume_execs`. -/
theorem resume_execs_list (es : List Effect) (loc : Bool) (v : List (Nat × Nat)) :
    (resume_log_spec_list es loc v).filter is_exec
      = ((resume_reached_list es loc).filter (fun p => check_dirtiness p.1 v)).map
          (fun p => Event.executed p.1.id) := by
  match es with
  | [] => rw [resume_log_spec_list, resume_reached_list]; rfl
  | c :: rest =>
    rw [resume_log_spec_list, resume_reached_list]
    simp only [List.filter_append, List.map_append]
    rw [resume_execs c (if c.transparent then loc else false) v,
        resume_execs_list rest loc v]
    have hb : (if c.transparent then loc else false) = (loc && c.transparent) := by
      cases c.transparent <;> simp
    rw [hb]
termination_by sizeOf es
decreasing_by all_goals simp_wf <;> omega

end

/-- C3: `resume_effect` walks the subtree clearing inert flags, stopping at
nodes that are not inert (such a call returns the tree unchanged with no
events); the resulting tree is the claim-worded transform — every reached node
un-inerted and, when its dependencies changed while it was inert, executed
immediately (left clean with its dep versions reconciled) — the trace is the
claim-worded trace in which each node's execution comes before its children's
events and the eligible (global, or local within the family) inbound
transitions are triggered last; and the execution events are exactly one per
reached node whose dependencies changed while it was inert. -/
theorem claim_C3 (e : Effect) (v : List (Nat × Nat)) :
    (e.data.inert = false → resume_effect e v = (e, []))
    ∧ (resume_effect e v).1 = resume_tree_spec e v
    ∧ (resume_effect e v).2 = resume_log_spec e true v
    ∧ (resume_effect e v).2.filter is_exec
        = ((resume_reached e true).filter (fun p => check_dirtiness p.1 v)).map
            (fun p => Event.executed p.1.id) := by
  refine ⟨?_, ?_, ?_, ?_⟩
  · intro h
    match e with
    | .mk d cs =>
      rw [resume_effect, resume_children]
      rw [show (Effect.mk d cs).data = d from rfl] at h
      simp [h]
  · rw [resume_effect, resume_eq]
  · rw [resume_effect, resume_eq]
  · rw [resume_effect, resume_eq]
    exact resume_execs e true v

/-- C3 witness: the concrete tree `wTree` is not inert, so resuming it
returns it unchanged with no events. -/
theorem claim_C3_witness :
    wTree.data.inert = false ∧ resume_effect wTree [] = (wTree, []) := by
  exact ⟨rfl, (claim_C3 wTree []).1 rfl⟩

/-- Reading the nullable child list of a node whose children were rebuilt from
that same list commutes with `getD`, for any rebuild that sends `[]` to `[]`. -/
theorem map_const_getD (cs : Option (List Effect)) (f : List Effect → List Effect)
    (hf : f [] = []) :
    (cs.map (fun _ => f (cs.getD []))).getD [] = f (cs.getD []) := by
  cases cs <;> simp [hf]

/-- Transparency is preserved by marking a subtree inert. -/
theorem mark_inert_transparent (c : Effect) : (mark_inert c).transparent = c.transparent := by
  match c with
  | .mk d cs =>
    rw [mark_inert]
    cases h : d.inert <;> simp [Effect.transparent, Effect.data]

mutual

/-- Marking an all-active tree inert sets the inert flag on every node and
changes nothing else. -/
theorem mark_all (e : Effect) (h : ∀ d ∈ e.nodes, d.inert = false) :
    (mark_inert e).nodes = e.nodes.map (fun d => { d with inert := true }) := by
  match e with
  | .mk d cs =>
    have hd : d.inert = false := by
      refine h d ?_
      rw [Effect.nodes]
      exact List.mem_cons_self d _
    rw [mark_inert]
    rw [show Effect.nodes (Effect.mk d cs) = d :: nodes_list (cs.getD []) from by
          rw [Effect.nodes]]
    simp only [hd, Bool.false_eq_true, if_false, List.map_cons]
    rw [show Effect.nodes (Effect.mk { d with inert := true }
            (cs.map (fun _ => mark_inert_list (cs.getD []))))
          = { d with inert := true }
              :: nodes_list ((cs.map (fun _ => mark_inert_list (cs.getD []))).getD [])
        from by rw [Effect.nodes]]
    rw [map_const_getD cs mark_inert_list (by rw [mark_inert_list])]
    rw [mark_all_list (cs.getD [])]
    intro d2 hd2
    refine h d2 ?_
    rw [Effect.nodes]
    exact List.mem_cons_of_mem d hd2
termination_by sizeOf e
decreasing_by simp_wf; exact Nat.lt_of_le_of_lt (sizeOf_option_getD _) (by omega)

/-- List version of `mark_all`. -/
theorem mark_all_list (es : List Effect) (h : ∀ d ∈ nodes_list es, d.inert = false) :
    nodes_list (mark_inert_list es) = (nodes_list es).map (fun d => { d with inert := true }) := by
  match es with
  | [] => simp [mark_inert_list, nodes_list]
  | c :: rest =>
    rw [mark_inert_list]
    rw [show nodes_list (mark_inert c :: mark_inert_list rest)
          = (mark_inert c).nodes ++ nodes_list (mark_inert_list rest) from by rw [nodes_list]]
    rw [show nodes_list (c :: rest) = c.nodes ++ nodes_list rest from by rw [nodes_list]]
    rw [List.map_append]
    rw [mark_all c (fun d2 hd2 => h d2 (by
          rw [show nodes_list (c :: rest) = c.nodes ++ nodes_list rest from by rw [nodes_list]]
          exact List.mem_append_left _ hd2))]
    rw [mark_all_list rest (fun d2 hd2 => h d2 (by
          rw [show nodes_list (c :: rest) = c.nodes ++ nodes_list rest from by rw [nodes_list]]
          exact List.mem_append_right _ hd2))]
termination_by sizeOf es
decreasing_by all_goals simp_wf <;> omega

end

mutual

/-- Resuming a subtree whose nodes are all inert and not destroyed leaves
every node active: inert cleared and still not destroyed. -/
theorem resume_clear (e : Effect) (v : List (Nat × Nat))
    (h : ∀ d ∈ e.nodes, d.inert = true ∧ d.status ≠ Status.destroyed) :
    ∀ d2 ∈ (resume_tree_spec e v).nodes, d2.inert = false ∧ d2.status ≠ Status.destroyed := by
  match e with
  | .mk d cs =>
    have hd := h d (by
      rw [show Effect.nodes (Effect.mk d cs) = d :: nodes_list (cs.getD []) from by
            rw [Effect.nodes]]
      exact List.mem_cons_self d _)
    rw [resume_tree_spec]
    simp only [hd.1, Bool.not_true, Bool.false_eq_true, if_false]
    intro d2 hd2
    rw [show ∀ l, Effect.nodes (Effect.mk
            (if check_dirtiness { d with inert := false } v
             then execute_effect_tree { d with inert := false } v
             else { d with inert := false }) l)
          = (if check_dirtiness { d with inert := false } v
             then execute_effect_tree { d with inert := false } v
             else { d with inert := false }) :: nodes_list (l.getD [])
        from fun l => by rw [Effect.nodes]] at hd2
    rw [map_const_getD cs (resume_tree_spec_list · v)
          (by show resume_tree_spec_list [] v = []; rw [resume_tree_spec_list])] at hd2
    rcases List.mem_cons.mp hd2 with h2 | h2
    · subst h2
      cases hc : check_dirtiness { d with inert := false } v <;>
        simp [hc, execute_effect_tree, hd.2]
    · refine resume_clear_list (cs.getD []) v ?_ d2 h2
      intro d3 hd3
      refine h d3 ?_
      rw [show Effect.nodes (Effect.mk d cs) = d :: nodes_list (cs.getD []) from by
            rw [Effect.nodes]]
      exact List.mem_cons_of_mem d hd3
termination_by sizeOf e
decreasing_by simp_wf; exact Nat.lt_of_le_of_lt (sizeOf_option_getD _) (by omega)

/-- List version of `resume_clear`. -/
theorem resume_clear_list (es : List Effect) (v : List (Nat × Nat))
    (h : ∀ d ∈ nodes_list es, d.inert = true ∧ d.status ≠ Status.destroyed) :
    ∀ d2 ∈ nodes_list (resume_tree_spec_list es v),
      d2.inert = false ∧ d2.status ≠ Status.destroyed := by
  match es with
  | [] =>
    rw [resume_tree_spec_list]
    intro d2 hd2
    rw [nodes_list] at hd2
    exact absurd hd2 (List.not_mem_nil d2)
  | c :: rest =>
    rw [resume_tree_spec_list]
    intro d2 hd2
    rw [show nodes_list (resume_tree_spec c v :: resume_tree_spec_list rest v)
          = (resume_tree_spec c v).nodes ++ nodes_list (resume_tree_spec_list rest v)
        from by rw [nodes_list]] at hd2
    have hsplit : ∀ d3, d3 ∈ c.nodes ∨ d3 ∈ nodes_list rest →
        d3.inert = true ∧ d3.status ≠ Status.destroyed := by
      intro d3 hd3
      refine h d3 ?_
      rw [show nodes_list (c :: rest) = c.nodes ++ nodes_list rest from by rw [nodes_list]]
      exact List.mem_append.mpr hd3
    rcases List.mem_append.mp hd2 with h2 | h2
    · exact resume_clear c v (fun d3 hd3 => hsplit d3 (Or.inl hd3)) d2 h2
    · exact resume_clear_list rest v (fun d3 hd3 => hsplit d3 (Or.inr hd3)) d2 h2
termination_by sizeOf es
decreasing_by all_goals simp_wf <;> omega

end

mutual

/-- A resume trace never contains a destruction event. -/
theorem resume_no_destroy (e : Effect) (loc : Bool) (v : List (Nat × Nat)) (id : Nat) :
    Event.destroyedNode id ∉ resume_log_spec e loc v := by
  match e with
  | .mk d cs =>
    rw [resume_log_spec]
    cases h : d.inert
    · simp [h]
    · simp only [h, Bool.not_true, Bool.false_eq_true, if_false]
      intro hmem
      rcases List.mem_append.mp hmem with h2 | h2
      · rcases List.mem_append.mp h2 with h3 | h3
        · cases hc : check_dirtiness d v <;> simp [hc] at h3
        · exact resume_no_destroy_list (cs.getD []) loc v id h3
      · rcases List.mem_map.mp h2 with ⟨t, ht, habs⟩
        exact Event.noConfusion habs
termination_by sizeOf e
decreasing_by simp_wf; exact Nat.lt_of_le_of_lt (sizeOf_option_getD _) (by omega)

/-- List version of `resume_no_destroy`. -/
theorem resume_no_destroy_list (es : List Effect) (loc : Bool) (v : List (Nat × Nat))
    (id : Nat) : Event.destroyedNode id ∉ resume_log_spec_list es loc v := by
  match es with
  | [] =>
    rw [resume_log_spec_list]
    exact List.not_mem_nil _
  | c :: rest =>
    rw [resume_log_spec_list]
    intro hmem
    rcases List.mem_append.mp hmem with h2 | h2
    · exact resume_no_destroy c (if c.transparent then loc else false) v id h2
    · exact resume_no_destroy_list rest loc v id h2
termination_by sizeOf es
decreasing_by all_goals simp_wf <;> omega

end

mutual

/-- Resume reaches, on a freshly marked all-active tree, exactly the nodes the
pause reached, with the same family flags, each with its inert flag set. -/
theorem resume_reached_mark (e : Effect) (fam : Bool)
    (h : ∀ d ∈ e.nodes, d.inert = false) :
    resume_reached (mark_inert e) fam
      = (pause_reached e fam).map (fun p => ({ p.1 with inert := true }, p.2)) := by
  match e with
  | .mk d cs =>
    have hd : d.inert = false := h d (by
      rw [show Effect.nodes (Effect.mk d cs) = d :: nodes_list (cs.getD []) from by
            rw [Effect.nodes]]
      exact List.mem_cons_self d _)
    rw [mark_inert, pause_reached]
    simp only [hd, Bool.false_eq_true, if_false]
    rw [show ∀ l, resume_reached (Effect.mk { d with inert := true } l) fam
          = ({ d with inert := true }, fam)
              :: resume_reached_list (l.getD []) fam
        from fun l => by rw [resume_reached]; rfl]
    rw [map_const_getD cs mark_inert_list (by rw [mark_inert_list])]
    rw [resume_reached_mark_list (cs.getD []) fam (fun d3 hd3 => h d3 (by
          rw [show Effect.nodes (Effect.mk d cs) = d :: nodes_list (cs.getD []) from by
                rw [Effect.nodes]]
          exact List.mem_cons_of_mem d hd3))]
    simp
termination_by sizeOf e
decreasing_by simp_wf; exact Nat.lt_of_le_of_lt (sizeOf_option_getD _) (by omega)

/-- List version of `resume_reached_mark`. -/
theorem resume_reached_mark_list (es : List Effect) (fam : Bool)
    (h : ∀ d ∈ nodes_list es, d.inert = false) :
    resume_reached_list (mark_inert_list es) fam
      = (pause_reached_list es fam).map (fun p => ({ p.1 with inert := true }, p.2)) := by
  match es with
  | [] =>
    rw [mark_inert_list]
    rw [resume_reached_list, pause_reached_list]
    rfl
  | c :: rest =>
    have hsplit : ∀ d3, d3 ∈ c.nodes ∨ d3 ∈ nodes_list rest → d3.inert = false := by
      intro d3 hd3
      refine h d3 ?_
      rw [show nodes_list (c :: rest) = c.nodes ++ nodes_list rest from by rw [nodes_list]]
      exact List.mem_append.mpr hd3
    rw [mark_inert_list]
    rw [show resume_reached_list (mark_inert c :: mark_inert_list rest) fam
          = resume_reached (mark_inert c) (fam && (mark_inert c).transparent)
              ++ resume_reached_list (mark_inert_list rest) fam
        from by rw [resume_reached_list]]
    rw [show pause_reached_list (c :: rest) fam
          = pause_reached c (fam && c.transparent) ++ pause_reached_list rest fam
        from by rw [pause_reached_list]]
    rw [List.map_append, mark_inert_transparent]
    rw [resume_reached_mark c (fam && c.transparent) (fun d3 hd3 => hsplit d3 (Or.inl hd3))]
    rw [resume_reached_mark_list rest fam (fun d3 hd3 => hsplit d3 (Or.inr hd3))]
termination_by sizeOf es
decreasing_by all_goals simp_wf <;> omega

end

mutual

/-- Each eligible transition of a node the resume walk reaches receives its
inbound trigger. -/
theorem resume_ins_mem (e : Effect) (loc : Bool) (v : List (Nat × Nat))
    (d : EffectData) (fam : Bool) (t : Transition)
    (hp : (d, fam) ∈ resume_reached e loc) (ht : t ∈ d.transitions.getD [])
    (he : (t.is_global || fam) = true) :
    Event.transIn t.id ∈ resume_log_spec e loc v := by
  match e with
  | .mk d0 cs =>
    rw [resume_reached] at hp
    rw [resume_log_spec]
    cases h : d0.inert
    · rw [h] at hp
      simp at hp
    · rw [h] at hp
      simp only [Bool.not_true, Bool.false_eq_true, if_false, List.mem_cons] at hp
      simp only [Bool.not_true, Bool.false_eq_true, if_false]
      rcases hp with h2 | h2
      · have hd : d0 = d ∧ loc = fam := by
          have h3 := Prod.mk.injEq d fam d0 loc |>.mp h2
          exact ⟨h3.1.symm, h3.2.symm⟩
        refine List.mem_append_right _ ?_
        refine List.mem_map.mpr ⟨t, ?_, rfl⟩
        refine List.mem_filter.mpr ⟨?_, ?_⟩
        · rw [hd.1]
          exact ht
        · rw [hd.2]
          exact he
      · refine List.mem_append_left _ (List.mem_append_right _ ?_)
        exact resume_ins_mem_list (cs.getD []) loc v d fam t h2 ht he
termination_by sizeOf e
decreasing_by simp_wf; exact Nat.lt_of_le_of_lt (sizeOf_option_getD _) (by omega)

/-- List version of `resume_ins_mem`. -/
theorem resume_ins_mem_list (es : List Effect) (loc : Bool) (v : List (Nat × Nat))
    (d : EffectData) (fam : Bool) (t : Transition)
    (hp : (d, fam) ∈ resume_reached_list es loc) (ht : t ∈ d.transitions.getD [])
    (he : (t.is_global || fam) = true) :
    Event.transIn t.id ∈ resume_log_spec_list es loc v := by
  match es with
  | [] =>
    rw [resume_reached_list] at hp
    exact absurd hp (List.not_mem_nil _)
  | c :: rest =>
    rw [resume_reached_list] at hp
    rw [resume_log_spec_list]
    have hb : (loc && c.transparent) = (if c.transparent then loc else false) := by
      cases c.transparent <;> simp
    rcases List.mem_append.mp hp with h2 | h2
    · rw [hb] at h2
      exact List.mem_append_left _
        (resume_ins_mem c (if c.transparent then loc else false) v d fam t h2 ht he)
    · exact List.mem_append_right _ (resume_ins_mem_list rest loc v d fam t h2 ht he)
termination_by sizeOf es
decreasing_by all_goals simp_wf <;> omega

end

mutual

/-- On an all-inert tree, the resume walk reaches every node, in pre-order. -/
theorem resume_reached_nodes (e : Effect) (fam : Bool)
    (h : ∀ d ∈ e.nodes, d.inert = true) :
    (resume_reached e fam).map (fun p => p.1) = e.nodes := by
  match e with
  | .mk d cs =>
    have hd : d.inert = true := h d (by
      rw [show Effect.nodes (Effect.mk d cs) = d :: nodes_list (cs.getD []) from by
            rw [Effect.nodes]]
      exact List.mem_cons_self d _)
    rw [resume_reached,
        show Effect.nodes (Effect.mk d cs) = d :: nodes_list (cs.getD []) from by
          rw [Effect.nodes]]
    simp only [hd, Bool.not_true, Bool.false_eq_true, if_false, List.map_cons, List.cons.injEq,
               true_and]
    rw [resume_reached_nodes_list (cs.getD []) fam (fun d3 hd3 => h d3 (by
          rw [show Effect.nodes (Effect.mk d cs) = d :: nodes_list (cs.getD []) from by
                rw [Effect.nodes]]
          exact List.mem_cons_of_mem d hd3))]
termination_by sizeOf e
decreasing_by simp_wf; exact Nat.lt_of_le_of_lt (sizeOf_option_getD _) (by omega)

/-- List version of `resume_reached_nodes`. -/
theorem resume_reached_nodes_list (es : List Effect) (fam : Bool)
    (h : ∀ d ∈ nodes_list es, d.inert = true) :
    (resume_reached_list es fam).map (fun p => p.1) = nodes_list es := by
  match es with
  | [] =>
    rw [resume_reached_list, nodes_list]
    rfl
  | c :: rest =>
    have hsplit : ∀ d3, d3 ∈ c.nodes ∨ d3 ∈ nodes_list rest → d3.inert = true := by
      intro d3 hd3
      refine h d3 ?_
      rw [show nodes_list (c :: rest) = c.nodes ++ nodes_list rest from by rw [nodes_list]]
      exact List.mem_append.mpr hd3
    rw [resume_reached_list,
        show nodes_list (c :: rest) = c.nodes ++ nodes_list rest from by rw [nodes_list]]
    rw [List.map_append]
    rw [resume_reached_nodes c (fam && c.transparent) (fun d3 hd3 => hsplit d3 (Or.inl hd3))]
    rw [resume_reached_nodes_list rest fam (fun d3 hd3 => hsplit d3 (Or.inr hd3))]
termination_by sizeOf es
decreasing_by all_goals simp_wf <;> omega

end

/-- C8: pausing an all-active subtree and resuming it before any collected
transition signals completion restores every inert flag and leaves the subtree
active (no node is destroyed by the resume, and the deferred destroy has not
fired — and cannot fire, since every pending exit transition receives its
inbound trigger, which under the transition contract aborts its outbound
completion callback), while every node whose dependencies changed while inert
is re-executed during the resume. -/
theorem claim_C8 (e : Effect) (v : List (Nat × Nat))
    (hact : ∀ d ∈ e.nodes, d.inert = false ∧ d.status ≠ Status.destroyed)
    (hne : (pause_effect e).collected ≠ []) :
    (∀ d2 ∈ (resume_effect (pause_effect e).tree v).1.nodes,
        d2.inert = false ∧ d2.status ≠ Status.destroyed)
    ∧ (∀ id, Event.destroyedNode id ∉ (resume_effect (pause_effect e).tree v).2)
    ∧ (pause_effect e).out.fired = false
    ∧ (∀ t ∈ (pause_effect e).collected,
        Event.transIn t.id ∈ (resume_effect (pause_effect e).tree v).2)
    ∧ (∀ d ∈ (pause_effect e).tree.nodes, check_dirtiness d v = true →
        Event.executed d.id ∈ (resume_effect (pause_effect e).tree v).2) := by
  have htree : (pause_effect e).tree = mark_inert e := by
    simpa [pause_effect] using pause_tree_eq e true
  have hM : ∀ d ∈ (mark_inert e).nodes, d.inert = true ∧ d.status ≠ Status.destroyed := by
    intro d hd
    rw [mark_all e (fun d3 h3 => (hact d3 h3).1)] at hd
    rcases List.mem_map.mp hd with ⟨d0, hd0, hd0eq⟩
    subst hd0eq
    exact ⟨rfl, (hact d0 hd0).2⟩
  have hres1 : (resume_effect (mark_inert e) v).1 = resume_tree_spec (mark_inert e) v := by
    rw [resume_effect, resume_eq]
  have hres2 : (resume_effect (mark_inert e) v).2 = resume_log_spec (mark_inert e) true v := by
    rw [resume_effect, resume_eq]
  rw [htree]
  refine ⟨?_, ?_, ?_, ?_, ?_⟩
  · rw [hres1]
    exact resume_clear (mark_inert e) v hM
  · intro id
    rw [hres2]
    exact resume_no_destroy (mark_inert e) true v id
  · have hl : 0 < (pause_effect e).collected.length := by
      cases hc : (pause_effect e).collected with
      | nil => exact absurd hc hne
      | cons a rest => simp [hc]
    rw [show (pause_effect e).out = out_start (pause_effect e).collected.length from rfl]
    simp [out_start, hl]
  · intro t htc
    rw [hres2]
    have hcol : (pause_effect e).collected
        = (pause_reached e true).flatMap
            (fun p => (p.1.transitions.getD []).filter (fun t => t.is_global || p.2)) := by
      simpa [pause_effect, pause_collect_spec] using pause_collect_eq e true
    rw [hcol] at htc
    rcases List.mem_flatMap.mp htc with ⟨p, hpmem, htmem⟩
    have ht' := List.mem_filter.mp htmem
    have hmap : ({ p.1 with inert := true }, p.2) ∈ resume_reached (mark_inert e) true := by
      rw [resume_reached_mark e true (fun d3 h3 => (hact d3 h3).1)]
      exact List.mem_map.mpr ⟨p, hpmem, rfl⟩
    refine resume_ins_mem (mark_inert e) true v ({ p.1 with inert := true }) p.2 t hmap ?_ ?_
    · exact ht'.1
    · simpa using ht'.2
  · intro d hd hc
    rw [hres2]
    have hall : ∀ d3 ∈ (mark_inert e).nodes, d3.inert = true := fun d3 h3 => (hM d3 h3).1
    have hreach := resume_reached_nodes (mark_inert e) true hall
    rw [← hreach] at hd
    rcases List.mem_map.mp hd with ⟨p, hpmem, hp1⟩
    have hfil : p ∈ (resume_reached (mark_inert e) true).filter
        (fun p => check_dirtiness p.1 v) :=
      List.mem_filter.mpr ⟨hpmem, by rw [hp1]; simpa using hc⟩
    have hmem2 : Event.executed d.id
        ∈ ((resume_reached (mark_inert e) true).filter
            (fun p => check_dirtiness p.1 v)).map (fun p => Event.executed p.1.id) := by
      refine List.mem_map.mpr ⟨p, hfil, ?_⟩
      rw [hp1]
    rw [← resume_execs (mark_inert e) true v] at hmem2
    exact List.mem_of_mem_filter hmem2

/-- C8 witness: the concrete all-active tree `wTree` paused with three pending
transitions and resumed before any signals: the destroy has not fired and the
resumed subtree is fully active again. -/
theorem claim_C8_witness :
    (∀ d ∈ wTree.nodes, d.inert = false ∧ d.status ≠ Status.destroyed)
    ∧ (pause_effect wTree).collected ≠ []
    ∧ (pause_effect wTree).out.fired = false
    ∧ (∀ d2 ∈ (resume_effect (pause_effect wTree).tree []).1.nodes,
        d2.inert = false ∧ d2.status ≠ Status.destroyed) := by
  have hact : ∀ d ∈ wTree.nodes, d.inert = false ∧ d.status ≠ Status.destroyed := by
    intro d hd
    simp [wTree, Effect.nodes, nodes_list] at hd
    rcases hd with h | h <;> subst h <;> exact ⟨rfl, by decide⟩
  have hne : (pause_effect wTree).collected ≠ [] := by
    have hcol : (pause_effect wTree).collected = [⟨20, true⟩, ⟨21, false⟩, ⟨22, false⟩] := by
      simp [pause_effect, wTree, pause_children, pause_children_list, wData, wChild,
            Effect.transparent, Effect.data, BRANCH_EFFECT, EFFECT]
    rw [hcol]
    simp
  have h := claim_C8 wTree [] hact hne
  exact ⟨hact, hne, h.2.2.1, h.1⟩
